import Mathlib

/-
  Verification of the parallel chunked file reader (src/parallel/reader.cc).

  The file is modelled as a list of byte values.  A positioned read from a
  static file returns up to `n` bytes starting at `off` (POSIX semantics).
  The destination buffer is modelled as a function `Nat → Nat`; a worker
  writing a list of bytes at an offset updates that function on the written
  range.  Seek/read failures and short reads delivered by the operating
  system are modelled by an oracle `env : Nat → Nat → ReadOutcome` mapping
  (file offset, requested length) of each positioned read to its outcome;
  `posixEnv` is the failure-free oracle of a static file.  The only place
  the source can wrap a machine integer is the size_t subtraction
  `actually_read - offset_in_block` (reader.cc line 90), modelled exactly by
  `sub64`.
-/

namespace PFR

/-- Modulus of the C `size_t` type on the target platform. -/
def SIZE_MOD : Nat := 2 ^ 64

/-- C `size_t` subtraction `a - b` (wraps modulo `2 ^ 64`). -/
def sub64 (a b : Nat) : Nat := (a + (SIZE_MOD - b % SIZE_MOD)) % SIZE_MOD

/-- reader.cc line 71 / 166: `((n + b - 1) / b) * b`, rounding `n` up to a
multiple of `b`. -/
def roundUp (n b : Nat) : Nat := (n + b - 1) / b * b

/-- POSIX positioned read from a static file: the bytes delivered by a read
of `n` bytes at offset `off` (fewer than `n` near end of file). -/
def readAt (file : List Nat) (off n : Nat) : List Nat := (file.drop off).take n

/-- Write a list of bytes into the destination buffer at offset `off`
(the effect of `memcpy(buffer + off, data, data.length)`). -/
def writeBytesF (buf : Nat → Nat) (off : Nat) (data : List Nat) : Nat → Nat :=
  fun i => if off ≤ i ∧ i < off + data.length then data.getD (i - off) 0 else buf i

/-- Outcome of one `lseek` + `::read` pair, as seen by the reading loop:
the seek failed, the read returned -1, or the read returned `n` bytes. -/
inductive ReadOutcome where
  | seekFail : ReadOutcome
  | readFail : ReadOutcome
  | ok : Nat → ReadOutcome
deriving DecidableEq

/-- The failure-free oracle of a static file: a positioned read of `req`
bytes at `off` succeeds and returns `min req (file.length - off)` bytes. -/
def posixEnv (file : List Nat) : Nat → Nat → ReadOutcome :=
  fun off req => .ok (min req (file.length - off))

/-- Why a read loop stopped. -/
inductive ExitReason where
  | done : ExitReason
  | seekFail : ExitReason
  | readFail : ExitReason
  | eofHit : ExitReason
  | shortRead : ExitReason
  | fuelOut : ExitReason
deriving DecidableEq

/-- Result of one loop iteration: continue with new buffer/counter, or stop. -/
inductive StepRes where
  | next : (Nat → Nat) → Nat → StepRes
  | stop : (Nat → Nat) → Nat → ExitReason → StepRes

/-- Buffer component of a step result. -/
def StepRes.buf : StepRes → (Nat → Nat)
  | .next b _ => b
  | .stop b _ _ => b

/-- Byte-counter component of a step result. -/
def StepRes.bytes : StepRes → Nat
  | .next _ k => k
  | .stop _ k _ => k

/-- Exit reason of a step result (`none` while the loop continues). -/
def StepRes.reason : StepRes → Option ExitReason
  | .next _ _ => none
  | .stop _ _ r => some r

/-- One iteration of the buffered read loop, reader.cc lines 110-143.
State: destination buffer `buf` and `bytes_read = k` for the section
`[ss, ss + sz)`. -/
def bufferedStep (file : List Nat) (rcs ss sz : Nat) (env : Nat → Nat → ReadOutcome)
    (buf : Nat → Nat) (k : Nat) : StepRes :=
  if k < sz then
    let current_offset := ss + k
    let bytes_to_read := min rcs (sz - k)
    match env current_offset bytes_to_read with
    | .seekFail => .stop buf k .seekFail
    | .readFail => .stop buf k .readFail
    | .ok actually_read =>
      let data := readAt file current_offset actually_read
      let buf2 := writeBytesF buf current_offset data
      let k2 := k + actually_read
      if actually_read < bytes_to_read ∧ 0 < actually_read then .stop buf2 k2 .shortRead
      else if actually_read = 0 then .stop buf2 k2 .eofHit
      else .next buf2 k2
  else .stop buf k .done

/-- The buffered read loop (reader.cc lines 104-146), with a fuel bound on
the number of iterations. -/
def bufferedLoop (file : List Nat) (rcs ss sz : Nat) (env : Nat → Nat → ReadOutcome)
    (buf : Nat → Nat) (k fuel : Nat) : (Nat → Nat) × Nat × ExitReason :=
  match fuel with
  | 0 => (buf, k, .fuelOut)
  | fuel + 1 =>
    match bufferedStep file rcs ss sz env buf k with
    | .stop b2 k2 r => (b2, k2, r)
    | .next b2 k2 => bufferedLoop file rcs ss sz env b2 k2 fuel

/-- The positioned read issued by one iteration of the O_DIRECT loop,
reader.cc lines 64-71: aligned offset and rounded-up length. -/
structure ReadCall where
  offset : Nat
  length : Nat

/-- Parameters of the aligned read issued in the state `bytes_processed = k`
of the O_DIRECT loop over section `[ss, ss + sz)`.  reader.cc lines 65-71. -/
def directReadCall (b rcs ss sz k : Nat) : ReadCall :=
  let current_offset := ss + k
  let aligned_offset := current_offset / b * b
  let offset_in_block := current_offset - aligned_offset
  let remaining_in_section := sz - k
  { offset := aligned_offset
    length := roundUp (min rcs (remaining_in_section + offset_in_block)) b }

/-- One iteration of the O_DIRECT aligned read loop, reader.cc lines 63-99.
The scratch buffer's valid content after a read returning `actually_read`
bytes is `readAt file aligned_offset actually_read`; the `memcpy` copies
`bytes_to_copy = min (sub64 actually_read offset_in_block) remaining` bytes
out of it starting at `offset_in_block`. -/
def directStep (file : List Nat) (b rcs ss sz : Nat) (env : Nat → Nat → ReadOutcome)
    (buf : Nat → Nat) (k : Nat) : StepRes :=
  if k < sz then
    let current_offset := ss + k
    let rc := directReadCall b rcs ss sz k
    let offset_in_block := current_offset - rc.offset
    let remaining_in_section := sz - k
    match env rc.offset rc.length with
    | .seekFail => .stop buf k .seekFail
    | .readFail => .stop buf k .readFail
    | .ok actually_read =>
      let data := readAt file rc.offset actually_read
      let bytes_to_copy := min (sub64 actually_read offset_in_block) remaining_in_section
      let buf2 := writeBytesF buf current_offset ((data.drop offset_in_block).take bytes_to_copy)
      let k2 := k + bytes_to_copy
      if actually_read < rc.length then .stop buf2 k2 .shortRead
      else .next buf2 k2
  else .stop buf k .done

/-- The O_DIRECT aligned read loop (reader.cc lines 45-103), with fuel. -/
def directLoop (file : List Nat) (b rcs ss sz : Nat) (env : Nat → Nat → ReadOutcome)
    (buf : Nat → Nat) (k fuel : Nat) : (Nat → Nat) × Nat × ExitReason :=
  match fuel with
  | 0 => (buf, k, .fuelOut)
  | fuel + 1 =>
    match directStep file b rcs ss sz env buf k with
    | .stop b2 k2 r => (b2, k2, r)
    | .next b2 k2 => directLoop file b rcs ss sz env b2 k2 fuel

/-- Length of partition `i` out of `nt` over a file of `fs` bytes: the last
partition absorbs the remainder (reader.cc lines 252-266). -/
def partitionLen (fs nt i : Nat) : Nat :=
  if i = nt - 1 then fs / nt + fs % nt else fs / nt

/-- The partition-building loop of `read()` (reader.cc lines 260-272):
with `m` loop iterations left, at thread index `i` with accumulated offset
`off`, emit `(offset, length)` pairs for threads `i, …, i + m - 1`. -/
def partitionsAux (fs nt : Nat) : Nat → Nat → Nat → List (Nat × Nat)
  | 0, _, _ => []
  | m + 1, i, off =>
    (off, partitionLen fs nt i) :: partitionsAux fs nt m (i + 1) (off + partitionLen fs nt i)

/-- The partitions of `[0, fs)` handed to the `nt` worker threads: the loop
runs `nt` times from thread index 0 and offset 0. -/
def partitions (fs nt : Nat) : List (Nat × Nat) := partitionsAux fs nt nt 0 0

/-- One zero-fill thread: `memset(buffer + off, 0, len)` (reader.cc line 219). -/
def zeroFillWorker (buf : Nat → Nat) (off len : Nat) : Nat → Nat :=
  fun i => if off ≤ i ∧ i < off + len then 0 else buf i

/-- The parallel memset phase of `read()` (reader.cc lines 200-231): the same
partitioning, one zero-fill thread per partition, all joined. -/
def zeroFillPhase (fs nt : Nat) (buf : Nat → Nat) : Nat → Nat :=
  (partitions fs nt).foldl (fun bf p => zeroFillWorker bf p.1 p.2) buf

/-- Hard-coded filesystem block size for O_DIRECT alignment (reader.cc line 19). -/
def blockSize : Nat := 4096

/-- Constructor adjustment of `read_chunk_size` (reader.cc lines 164-167):
in O_DIRECT mode, round it up to a multiple of the block size. -/
def ctorChunkSize (rcs b : Nat) (odirect : Bool) : Nat :=
  if odirect ∧ rcs % b ≠ 0 then roundUp rcs b else rcs

/-- One worker thread in O_DIRECT mode running its whole section
(`readChunk`, direct path); fuel `sz + 1` covers every possible iteration
count since each iteration either stops or copies at least one byte. -/
def directWorker (file : List Nat) (b rcs : Nat) (buf : Nat → Nat) (p : Nat × Nat) : Nat → Nat :=
  (directLoop file b rcs p.1 p.2 (posixEnv file) buf 0 (p.2 + 1)).1

/-- One worker thread in buffered mode running its whole section
(`readChunk`, regular path). -/
def bufferedWorker (file : List Nat) (rcs : Nat) (buf : Nat → Nat) (p : Nat × Nat) : Nat → Nat :=
  (bufferedLoop file rcs p.1 p.2 (posixEnv file) buf 0 (p.2 + 1)).1

/-- The whole `read()` call on a failure-free system: allocate (contents
`buf0` arbitrary), zero-fill in parallel, then one worker per partition.
Workers write to disjoint buffer ranges, so the concurrent execution is
modelled by folding the workers over the partition list. -/
def parallelRead (odirect : Bool) (file : List Nat) (b rcs nt : Nat)
    (buf0 : Nat → Nat) : Nat → Nat :=
  let rcs2 := ctorChunkSize rcs b odirect
  let zbuf := zeroFillPhase file.length nt buf0
  (partitions file.length nt).foldl
    (fun bf p => if odirect then directWorker file b rcs2 bf p
                 else bufferedWorker file rcs2 bf p) zbuf

/-- `getFileSize` (reader.cc lines 23-27): `stat` failure is reported as
size 0.  The `stat` outcome is `none` (file missing) or `some size`. -/
def getFileSize (statResult : Option Nat) : Nat :=
  match statResult with
  | some sz => sz
  | none => 0

/-- The state a successfully constructed reader holds. -/
structure ReaderState where
  file_size : Nat
  num_threads : Nat
  read_chunk_size : Nat
  bufAllocated : Bool
deriving DecidableEq

/-- The constructor (reader.cc lines 159-172): adjust the chunk size, sample
the file size, and throw when it is 0.  No buffer is allocated here. -/
def mkReader (statResult : Option Nat) (threads chunk : Nat) (odirect : Bool) :
    Except String ReaderState :=
  if getFileSize statResult = 0 then
    .error "File not found or empty"
  else
    .ok { file_size := getFileSize statResult
          num_threads := threads
          read_chunk_size := ctorChunkSize chunk blockSize odirect
          bufAllocated := false }

/-- Exit code of `main` as far as construction is concerned (reader.cc
lines 364, 379-382): a thrown setup error is caught and turns into exit
code 1. -/
def mainExitCode (statResult : Option Nat) (threads chunk : Nat) (odirect : Bool) : Nat :=
  match mkReader statResult threads chunk odirect with
  | .error _ => 1
  | .ok _ => 0

/-- The `num_threads == 0` coercion performed by `main` (reader.cc
lines 356-358), before the reader is constructed. -/
def mainNumThreads (t : Nat) : Nat := if t = 0 then 1 else t

/-- `verify()` (reader.cc lines 297-322): one sequential read of `fs` bytes,
success iff `gcount` equals `fs`, match iff additionally the `fs` compared
bytes are equal.  `openOk` models whether the verification stream opened. -/
def verify (openOk : Bool) (file : List Nat) (fs : Nat) (buf : Nat → Nat) : Bool :=
  if openOk then
    let data := readAt file 0 fs
    (data.length == fs) && (List.range fs).all (fun i => buf i == data.getD i 0)
  else false

end PFR

namespace PFR

/-- Inside the written range, `writeBytesF` returns the written byte. -/
theorem writeBytesF_in (buf : Nat → Nat) (off : Nat) (data : List Nat) (i : Nat)
    (h1 : off ≤ i) (h2 : i < off + data.length) :
    writeBytesF buf off data i = data.getD (i - off) 0 := by
  simp [writeBytesF, h1, h2]

/-- Outside the written range, `writeBytesF` leaves the buffer unchanged. -/
theorem writeBytesF_out (buf : Nat → Nat) (off : Nat) (data : List Nat) (i : Nat)
    (h : ¬(off ≤ i ∧ i < off + data.length)) :
    writeBytesF buf off data i = buf i := by
  simp only [writeBytesF]
  exact if_neg h

/-- Length of a positioned read: capped by the bytes left in the file. -/
theorem readAt_length (file : List Nat) (off n : Nat) :
    (readAt file off n).length = min n (file.length - off) := by
  simp [readAt]

/-- Bytes delivered by a positioned read are the file's bytes. -/
theorem readAt_getD (file : List Nat) (off n j : Nat) (h1 : j < n) :
    (readAt file off n).getD j 0 = file.getD (off + j) 0 := by
  simp [readAt, List.getD_eq_getElem?_getD, List.getElem?_take, h1, List.getElem?_drop]

/-- `roundUp` produces a multiple of `b`. -/
theorem roundUp_dvd (n b : Nat) : b ∣ roundUp n b :=
  dvd_mul_left b ((n + b - 1) / b)

/-- `roundUp` does not shrink its argument. -/
theorem roundUp_ge (n b : Nat) (hb : 0 < b) : n ≤ roundUp n b := by
  unfold roundUp
  have h1 := Nat.div_add_mod (n + b - 1) b
  have h2 : (n + b - 1) % b < b := Nat.mod_lt _ hb
  have h3 : (n + b - 1) / b * b = b * ((n + b - 1) / b) := Nat.mul_comm _ _
  omega

/-- `roundUp` is the identity on multiples of `b`. -/
theorem roundUp_eq_self (n b : Nat) (hb : 0 < b) (hd : b ∣ n) : roundUp n b = n := by
  obtain ⟨c, rfl⟩ := hd
  unfold roundUp
  have hcb : b * c = c * b := Nat.mul_comm b c
  have h1 : b * c + b - 1 = (b - 1) + c * b := by omega
  rw [h1, Nat.add_mul_div_right _ _ hb, Nat.div_eq_of_lt (by omega), Nat.zero_add,
    Nat.mul_comm]

/-- `roundUp` is monotone in its first argument. -/
theorem roundUp_mono (m n b : Nat) (h : m ≤ n) : roundUp m b ≤ roundUp n b :=
  Nat.mul_le_mul_right b (Nat.div_le_div_right (by omega))

/-- A positive value rounds up to at least one block. -/
theorem roundUp_ge_block (n b : Nat) (hb : 0 < b) (hn : 0 < n) : b ≤ roundUp n b := by
  have h1 : 0 < roundUp n b := Nat.lt_of_lt_of_le hn (roundUp_ge n b hb)
  exact Nat.le_of_dvd h1 (roundUp_dvd n b)

/-- `sub64` agrees with exact subtraction when no underflow occurs and the
result fits in a size_t. -/
theorem sub64_eq (a c : Nat) (h1 : c ≤ a) (h2 : a - c < SIZE_MOD) (h3 : c < SIZE_MOD) :
    sub64 a c = a - c := by
  unfold sub64
  rw [Nat.mod_eq_of_lt h3]
  have h4 : a + (SIZE_MOD - c) = (a - c) + SIZE_MOD := by omega
  rw [h4, Nat.add_mod_right, Nat.mod_eq_of_lt h2]

end PFR

namespace PFR

/-- Closed form of the partition-building loop: starting at thread `i` with
the offset accumulated over threads `0, …, i-1` (all of base length), the
loop emits `(j * base, partitionLen j)` for `j = i, …, nt - 1`. -/
theorem partitionsAux_closed (fs nt : Nat) :
    ∀ m i, i + m = nt →
      partitionsAux fs nt m i (i * (fs / nt)) =
        (List.range' i m).map (fun j => (j * (fs / nt), partitionLen fs nt j)) := by
  intro m
  induction m with
  | zero => intro i hi; rfl
  | succ m ih =>
    intro i hi
    rw [partitionsAux, List.range'_succ, List.map_cons]
    by_cases hm : m = 0
    · subst hm
      rfl
    · have hne : i ≠ nt - 1 := by omega
      have hlen : partitionLen fs nt i = fs / nt := by
        rw [partitionLen, if_neg hne]
      have hoff : i * (fs / nt) + partitionLen fs nt i = (i + 1) * (fs / nt) := by
        rw [hlen, Nat.succ_mul]
      rw [hoff, ih (i + 1) (by omega)]

/-- The partitions are `(j * base, partitionLen j)` for `j < nt`. -/
theorem partitions_closed (fs nt : Nat) :
    partitions fs nt =
      (List.range nt).map (fun j => (j * (fs / nt), partitionLen fs nt j)) := by
  have h := partitionsAux_closed fs nt nt 0 (by omega)
  rw [Nat.zero_mul] at h
  rw [partitions, h, List.range_eq_range']

/-- There are exactly `nt` partitions. -/
theorem partitions_length (fs nt : Nat) : (partitions fs nt).length = nt := by
  simp [partitions_closed]

/-- Partition `i` of the list, for `i < nt`. -/
theorem partitions_getD (fs nt i : Nat) (hi : i < nt) :
    (partitions fs nt).getD i (0, 0) = (i * (fs / nt), partitionLen fs nt i) := by
  simp [partitions_closed, List.getD_eq_getElem?_getD, List.getElem?_map,
    List.getElem?_range, hi]

/-- The length of the last partition. -/
theorem partitionLen_last (fs nt : Nat) :
    partitionLen fs nt (nt - 1) = fs / nt + fs % nt := by
  rw [partitionLen, if_pos rfl]

/-- The combined length of the first `nt - 1` partitions plus the base:
arithmetic helper relating `(nt - 1) * base + base` to `nt * base`. -/
theorem pred_mul_add (nt base : Nat) (h : 1 ≤ nt) :
    (nt - 1) * base + base = nt * base := by
  cases nt with
  | zero => omega
  | succ n => simp [Nat.succ_sub_one, Nat.succ_mul]

/-- Every partition stays inside `[0, fs)`. -/
theorem partitions_le (fs nt : Nat) :
    ∀ p ∈ partitions fs nt, p.1 + p.2 ≤ fs := by
  intro p hp
  rw [partitions_closed] at hp
  simp only [List.mem_map, List.mem_range] at hp
  obtain ⟨j, hj, rfl⟩ := hp
  have hdm : nt * (fs / nt) + fs % nt = fs := Nat.div_add_mod fs nt
  by_cases hje : j = nt - 1
  · subst hje
    have h2 := pred_mul_add nt (fs / nt) (by omega)
    rw [partitionLen_last]
    omega
  · have hlen : partitionLen fs nt j = fs / nt := by rw [partitionLen, if_neg hje]
    have h2 : j * (fs / nt) + fs / nt = (j + 1) * (fs / nt) := (Nat.succ_mul j _).symm
    have h3 : (j + 1) * (fs / nt) ≤ nt * (fs / nt) :=
      Nat.mul_le_mul_right _ (by omega)
    omega

/-- Every byte of `[0, fs)` lies in some partition. -/
theorem partitions_cover (fs nt : Nat) (hnt : 1 ≤ nt) :
    ∀ i, i < fs → ∃ p ∈ partitions fs nt, p.1 ≤ i ∧ i < p.1 + p.2 := by
  intro i hi
  have hdm : nt * (fs / nt) + fs % nt = fs := Nat.div_add_mod fs nt
  have hmem : ∀ j, j < nt →
      (j * (fs / nt), partitionLen fs nt j) ∈ partitions fs nt := by
    intro j hj
    rw [partitions_closed]
    exact List.mem_map_of_mem _ (List.mem_range.mpr hj)
  by_cases hb0 : fs / nt = 0
  · refine ⟨_, hmem (nt - 1) (by omega), ?_, ?_⟩
    · simp [hb0]
    · rw [partitionLen_last]
      have hz : nt * (fs / nt) = 0 := by rw [hb0, Nat.mul_zero]
      have hz2 : (nt - 1) * (fs / nt) = 0 := by rw [hb0, Nat.mul_zero]
      omega
  · have hq : (fs / nt) * (i / (fs / nt)) + i % (fs / nt) = i :=
      Nat.div_add_mod i (fs / nt)
    have hr : i % (fs / nt) < fs / nt := Nat.mod_lt _ (Nat.pos_of_ne_zero hb0)
    by_cases hj : i / (fs / nt) < nt - 1
    · refine ⟨_, hmem (i / (fs / nt)) (by omega), ?_, ?_⟩
      · have hc : (i / (fs / nt)) * (fs / nt) = (fs / nt) * (i / (fs / nt)) :=
          Nat.mul_comm _ _
        omega
      · have hlen : partitionLen fs nt (i / (fs / nt)) = fs / nt := by
          rw [partitionLen, if_neg (by omega)]
        have hc : (i / (fs / nt)) * (fs / nt) = (fs / nt) * (i / (fs / nt)) :=
          Nat.mul_comm _ _
        omega
    · refine ⟨_, hmem (nt - 1) (by omega), ?_, ?_⟩
      · have h1 : (nt - 1) * (fs / nt) ≤ (i / (fs / nt)) * (fs / nt) :=
          Nat.mul_le_mul_right _ (by omega)
        have hc : (i / (fs / nt)) * (fs / nt) = (fs / nt) * (i / (fs / nt)) :=
          Nat.mul_comm _ _
        omega
      · rw [partitionLen_last]
        have h2 := pred_mul_add nt (fs / nt) hnt
        omega

/-- The partition lengths sum to the file size. -/
theorem partitions_sum (fs nt : Nat) (hnt : 1 ≤ nt) :
    ((partitions fs nt).map Prod.snd).sum = fs := by
  rw [partitions_closed, List.map_map]
  cases nt with
  | zero => omega
  | succ m =>
    have hcomp : (Prod.snd ∘ fun j => (j * (fs / (m + 1)), partitionLen fs (m + 1) j)) =
        partitionLen fs (m + 1) := rfl
    rw [hcomp, List.range_succ, List.map_append, List.sum_append]
    have h1 : (List.range m).map (partitionLen fs (m + 1)) =
        (List.range m).map (fun _ => fs / (m + 1)) := by
      apply List.map_congr_left
      intro j hj
      rw [List.mem_range] at hj
      rw [partitionLen, if_neg (by omega)]
    have h2 : (List.range m).map (fun _ => fs / (m + 1)) =
        List.replicate m (fs / (m + 1)) := by
      rw [List.map_const']
      simp
    rw [h1, h2, List.sum_replicate, smul_eq_mul]
    simp only [List.map_cons, List.map_nil, List.sum_cons, List.sum_nil]
    have h3 : partitionLen fs (m + 1) m = fs / (m + 1) + fs % (m + 1) := by
      have hmm : m = m + 1 - 1 := by omega
      rw [partitionLen, if_pos hmm]
    rw [h3]
    have hdm : (m + 1) * (fs / (m + 1)) + fs % (m + 1) = fs := Nat.div_add_mod fs (m + 1)
    have hsm : (m + 1) * (fs / (m + 1)) = m * (fs / (m + 1)) + fs / (m + 1) :=
      Nat.succ_mul m _
    omega

end PFR

namespace PFR

/-- Folding region writers over a list of regions: a position covered by
some region holds the written value `g i`; a position covered by no region
is untouched. -/
theorem foldl_regions (g : Nat → Nat) (w : (Nat → Nat) → (Nat × Nat) → (Nat → Nat)) :
    ∀ (ps : List (Nat × Nat)),
      (∀ buf p, p ∈ ps → ∀ i,
        w buf p i = if p.1 ≤ i ∧ i < p.1 + p.2 then g i else buf i) →
      ∀ buf i,
        ((∃ p ∈ ps, p.1 ≤ i ∧ i < p.1 + p.2) → ps.foldl w buf i = g i) ∧
        ((∀ p ∈ ps, ¬(p.1 ≤ i ∧ i < p.1 + p.2)) → ps.foldl w buf i = buf i) := by
  intro ps
  induction ps with
  | nil =>
    intro _ buf i
    refine ⟨?_, fun _ => rfl⟩
    rintro ⟨p, hp, _⟩
    exact absurd hp (List.not_mem_nil p)
  | cons p ps ih =>
    intro hw buf i
    have hw2 : ∀ buf q, q ∈ ps → ∀ i,
        w buf q i = if q.1 ≤ i ∧ i < q.1 + q.2 then g i else buf i :=
      fun buf q hq => hw buf q (List.mem_cons_of_mem p hq)
    have hwp := hw buf p (List.mem_cons_self p ps) i
    constructor
    · rintro ⟨q, hq, hqi⟩
      rw [List.foldl_cons]
      by_cases hcov : ∃ r ∈ ps, r.1 ≤ i ∧ i < r.1 + r.2
      · exact (ih hw2 (w buf p) i).1 hcov
      · have hqp : p.1 ≤ i ∧ i < p.1 + p.2 := by
          rcases List.mem_cons.mp hq with h | h
          · exact h ▸ hqi
          · exact absurd ⟨q, h, hqi⟩ hcov
        rw [(ih hw2 (w buf p) i).2 (fun r hr hri => hcov ⟨r, hr, hri⟩), hwp, if_pos hqp]
    · intro hall
      rw [List.foldl_cons,
        (ih hw2 (w buf p) i).2 (fun r hr => hall r (List.mem_cons_of_mem p hr)),
        hwp, if_neg (hall p (List.mem_cons_self p ps))]

/-- Taking `m` bytes out of a positioned read, skipping the first `oib`
bytes, yields the positioned read of `m` bytes at the advanced offset. -/
theorem readAt_drop_take (file : List Nat) (off n oib m : Nat) (h : oib + m ≤ n) :
    ((readAt file off n).drop oib).take m = readAt file (off + oib) m := by
  unfold readAt
  rw [List.drop_take, List.drop_drop, List.take_take, min_eq_left (by omega)]

/-- One deterministic iteration of the buffered loop in the interior of an
in-file section: the full requested chunk is read into the destination and
the loop continues. -/
theorem bufferedStep_posix (file : List Nat) (rcs ss sz k : Nat) (buf : Nat → Nat)
    (hr : 0 < rcs) (hin : ss + sz ≤ file.length) (hk : k < sz) :
    bufferedStep file rcs ss sz (posixEnv file) buf k =
      .next (writeBytesF buf (ss + k) (readAt file (ss + k) (min rcs (sz - k))))
        (k + min rcs (sz - k)) := by
  have har : min (min rcs (sz - k)) (file.length - (ss + k)) = min rcs (sz - k) := by
    omega
  simp only [bufferedStep, posixEnv, if_pos hk, har]
  rw [if_neg (by omega), if_neg (by omega)]

/-- The buffered loop over an in-file section, run deterministically from
byte counter `k`: it finishes the whole section, reports `sz` bytes, exits
via completion, and writes exactly the file's bytes of `[ss + k, ss + sz)`. -/
theorem bufferedLoop_posix (file : List Nat) (rcs ss sz : Nat)
    (hr : 0 < rcs) (hin : ss + sz ≤ file.length) :
    ∀ fuel k buf, k ≤ sz → sz - k < fuel →
      (bufferedLoop file rcs ss sz (posixEnv file) buf k fuel).2.1 = sz ∧
      (bufferedLoop file rcs ss sz (posixEnv file) buf k fuel).2.2 = .done ∧
      ∀ i, (bufferedLoop file rcs ss sz (posixEnv file) buf k fuel).1 i =
        if ss + k ≤ i ∧ i < ss + sz then file.getD i 0 else buf i := by
  intro fuel
  induction fuel with
  | zero => intro k buf h1 h2; omega
  | succ fuel ih =>
    intro k buf hk hf
    by_cases hks : k < sz
    · have hstep := bufferedStep_posix file rcs ss sz k buf hr hin hks
      simp only [bufferedLoop, hstep]
      have hbtr1 : 0 < min rcs (sz - k) := by omega
      have hbtr2 : min rcs (sz - k) ≤ sz - k := by omega
      have hlen2 : (readAt file (ss + k) (min rcs (sz - k))).length = min rcs (sz - k) := by
        rw [readAt_length]; omega
      obtain ⟨hb, hreason, hbuf⟩ :=
        ih (k + min rcs (sz - k))
          (writeBytesF buf (ss + k) (readAt file (ss + k) (min rcs (sz - k))))
          (by omega) (by omega)
      refine ⟨hb, hreason, ?_⟩
      intro i
      rw [hbuf i]
      by_cases hc1 : ss + k ≤ i ∧ i < ss + sz
      · by_cases hc2 : ss + (k + min rcs (sz - k)) ≤ i
        · rw [if_pos ⟨hc2, hc1.2⟩, if_pos hc1]
        · rw [if_neg (by omega), if_pos hc1,
            writeBytesF_in _ _ _ i hc1.1 (by omega),
            readAt_getD file (ss + k) _ _ (by omega)]
          congr 1
          omega
      · rw [if_neg (by omega), if_neg hc1,
          writeBytesF_out _ _ _ i (by rw [hlen2]; omega)]
    · have hkz : k = sz := by omega
      simp only [bufferedLoop, bufferedStep, if_neg hks]
      exact ⟨hkz, trivial, fun i => by rw [if_neg (by omega)]⟩

end PFR

namespace PFR

/-- Arithmetic facts about the aligned read issued in the interior of an
in-file section: the aligned offset does not exceed the current offset, the
in-block offset is below the block size, the request is at least one block
and at most `rcs`, the bytes actually delivered exceed the in-block offset,
and the bytes left in the file past the aligned offset decompose as the
bytes left past the current offset plus the in-block offset. -/
theorem directReadCall_facts (file : List Nat) (b rcs ss sz k : Nat)
    (hb : 0 < b) (hd : b ∣ rcs) (hr : 0 < rcs) (hin : ss + sz ≤ file.length)
    (hk : k < sz) :
    (directReadCall b rcs ss sz k).offset ≤ ss + k ∧
    ss + k - (directReadCall b rcs ss sz k).offset < b ∧
    b ≤ (directReadCall b rcs ss sz k).length ∧
    (directReadCall b rcs ss sz k).length ≤ rcs ∧
    ss + k - (directReadCall b rcs ss sz k).offset
      < min (directReadCall b rcs ss sz k).length
          (file.length - (directReadCall b rcs ss sz k).offset) ∧
    file.length - (directReadCall b rcs ss sz k).offset
      = (file.length - (ss + k)) + (ss + k - (directReadCall b rcs ss sz k).offset) := by
  have hoff : (directReadCall b rcs ss sz k).offset = (ss + k) / b * b := rfl
  have hlen : (directReadCall b rcs ss sz k).length =
      roundUp (min rcs ((sz - k) + (ss + k - (ss + k) / b * b))) b := rfl
  have hdm : b * ((ss + k) / b) + (ss + k) % b = ss + k := Nat.div_add_mod (ss + k) b
  have hc : (ss + k) / b * b = b * ((ss + k) / b) := Nat.mul_comm _ _
  have hmod : (ss + k) % b < b := Nat.mod_lt _ hb
  have h1 : (directReadCall b rcs ss sz k).offset ≤ ss + k := by rw [hoff]; omega
  have h2 : ss + k - (directReadCall b rcs ss sz k).offset < b := by rw [hoff]; omega
  have h3 : b ≤ (directReadCall b rcs ss sz k).length := by
    rw [hlen]
    exact roundUp_ge_block _ _ hb (by omega)
  have h4 : (directReadCall b rcs ss sz k).length ≤ rcs := by
    rw [hlen]
    exact le_trans (roundUp_mono _ _ _ (Nat.min_le_left _ _))
      (le_of_eq (roundUp_eq_self rcs b hb hd))
  have h6 : file.length - (directReadCall b rcs ss sz k).offset
      = (file.length - (ss + k)) + (ss + k - (directReadCall b rcs ss sz k).offset) := by
    omega
  have h5 : ss + k - (directReadCall b rcs ss sz k).offset
      < min (directReadCall b rcs ss sz k).length
          (file.length - (directReadCall b rcs ss sz k).offset) := by
    omega
  exact ⟨h1, h2, h3, h4, h5, h6⟩

/-- One deterministic iteration of the O_DIRECT loop in the interior of an
in-file section: the `memcpy` transfers exactly the file's bytes
`[ss + k, ss + k + btc)` with `btc = min (actually_read - offset_in_block)
remaining`, the size_t subtraction being exact; the loop stops (short read)
precisely when the aligned read was cut off by end of file. -/
theorem directStep_posix (file : List Nat) (b rcs ss sz k : Nat) (buf : Nat → Nat)
    (hb : 0 < b) (hd : b ∣ rcs) (hr : 0 < rcs) (hin : ss + sz ≤ file.length)
    (hflen : file.length < SIZE_MOD) (hk : k < sz) :
    directStep file b rcs ss sz (posixEnv file) buf k =
      (if min (directReadCall b rcs ss sz k).length
            (file.length - (directReadCall b rcs ss sz k).offset)
          < (directReadCall b rcs ss sz k).length
       then .stop
          (writeBytesF buf (ss + k) (readAt file (ss + k)
            (min (min (directReadCall b rcs ss sz k).length
                (file.length - (directReadCall b rcs ss sz k).offset)
              - (ss + k - (directReadCall b rcs ss sz k).offset)) (sz - k))))
          (k + min (min (directReadCall b rcs ss sz k).length
              (file.length - (directReadCall b rcs ss sz k).offset)
            - (ss + k - (directReadCall b rcs ss sz k).offset)) (sz - k))
          .shortRead
       else .next
          (writeBytesF buf (ss + k) (readAt file (ss + k)
            (min (min (directReadCall b rcs ss sz k).length
                (file.length - (directReadCall b rcs ss sz k).offset)
              - (ss + k - (directReadCall b rcs ss sz k).offset)) (sz - k))))
          (k + min (min (directReadCall b rcs ss sz k).length
              (file.length - (directReadCall b rcs ss sz k).offset)
            - (ss + k - (directReadCall b rcs ss sz k).offset)) (sz - k))) := by
  obtain ⟨h1, h2, h3, h4, h5, h6⟩ :=
    directReadCall_facts file b rcs ss sz k hb hd hr hin hk
  have hsub : sub64
      (min (directReadCall b rcs ss sz k).length
        (file.length - (directReadCall b rcs ss sz k).offset))
      (ss + k - (directReadCall b rcs ss sz k).offset)
      = min (directReadCall b rcs ss sz k).length
          (file.length - (directReadCall b rcs ss sz k).offset)
        - (ss + k - (directReadCall b rcs ss sz k).offset) := by
    apply sub64_eq
    · omega
    · omega
    · omega
  simp only [directStep, posixEnv, if_pos hk, hsub]
  rw [readAt_drop_take file _ _ _ _ (by omega),
    show (directReadCall b rcs ss sz k).offset
        + (ss + k - (directReadCall b rcs ss sz k).offset) = ss + k by omega]

end PFR

namespace PFR

/-- The O_DIRECT loop over an in-file section, run deterministically from
byte counter `k`: it finishes the whole section, reports `sz` bytes, and
writes exactly the file's bytes of `[ss + k, ss + sz)` into the destination
(even when the final aligned read is cut short by end of file). -/
theorem directLoop_posix (file : List Nat) (b rcs ss sz : Nat)
    (hb : 0 < b) (hd : b ∣ rcs) (hr : 0 < rcs) (hin : ss + sz ≤ file.length)
    (hflen : file.length < SIZE_MOD) :
    ∀ fuel k buf, k ≤ sz → sz - k < fuel →
      (directLoop file b rcs ss sz (posixEnv file) buf k fuel).2.1 = sz ∧
      ∀ i, (directLoop file b rcs ss sz (posixEnv file) buf k fuel).1 i =
        if ss + k ≤ i ∧ i < ss + sz then file.getD i 0 else buf i := by
  intro fuel
  induction fuel with
  | zero => intro k buf h1 h2; omega
  | succ fuel ih =>
    intro k buf hk hf
    by_cases hks : k < sz
    · obtain ⟨h1, h2, h3, h4, h5, h6⟩ :=
        directReadCall_facts file b rcs ss sz k hb hd hr hin hks
      have hstep := directStep_posix file b rcs ss sz k buf hb hd hr hin hflen hks
      by_cases hshort : min (directReadCall b rcs ss sz k).length
          (file.length - (directReadCall b rcs ss sz k).offset)
          < (directReadCall b rcs ss sz k).length
      · have hbtc : min (min (directReadCall b rcs ss sz k).length
            (file.length - (directReadCall b rcs ss sz k).offset)
          - (ss + k - (directReadCall b rcs ss sz k).offset)) (sz - k) = sz - k := by
          omega
        simp only [directLoop, hstep, if_pos hshort, hbtc]
        have hrlen : (readAt file (ss + k) (sz - k)).length = sz - k := by
          rw [readAt_length]; omega
        refine ⟨by omega, ?_⟩
        intro i
        by_cases hc1 : ss + k ≤ i ∧ i < ss + sz
        · rw [if_pos hc1, writeBytesF_in _ _ _ i hc1.1 (by rw [hrlen]; omega),
            readAt_getD file (ss + k) _ _ (by omega)]
          congr 1
          omega
        · rw [if_neg hc1, writeBytesF_out _ _ _ i (by rw [hrlen]; omega)]
      · have hbtc1 : 0 < min (min (directReadCall b rcs ss sz k).length
            (file.length - (directReadCall b rcs ss sz k).offset)
          - (ss + k - (directReadCall b rcs ss sz k).offset)) (sz - k) := by
          omega
        have hbtc2 : min (min (directReadCall b rcs ss sz k).length
            (file.length - (directReadCall b rcs ss sz k).offset)
          - (ss + k - (directReadCall b rcs ss sz k).offset)) (sz - k) ≤ sz - k := by
          omega
        have hrlen : (readAt file (ss + k)
            (min (min (directReadCall b rcs ss sz k).length
                (file.length - (directReadCall b rcs ss sz k).offset)
              - (ss + k - (directReadCall b rcs ss sz k).offset)) (sz - k))).length
            = min (min (directReadCall b rcs ss sz k).length
                (file.length - (directReadCall b rcs ss sz k).offset)
              - (ss + k - (directReadCall b rcs ss sz k).offset)) (sz - k) := by
          rw [readAt_length]; omega
        simp only [directLoop, hstep, if_neg hshort]
        obtain ⟨hbytes, hbuf⟩ := ih
          (k + min (min (directReadCall b rcs ss sz k).length
              (file.length - (directReadCall b rcs ss sz k).offset)
            - (ss + k - (directReadCall b rcs ss sz k).offset)) (sz - k))
          (writeBytesF buf (ss + k) (readAt file (ss + k)
            (min (min (directReadCall b rcs ss sz k).length
                (file.length - (directReadCall b rcs ss sz k).offset)
              - (ss + k - (directReadCall b rcs ss sz k).offset)) (sz - k))))
          (by omega) (by omega)
        refine ⟨hbytes, ?_⟩
        intro i
        rw [hbuf i]
        by_cases hc1 : ss + k ≤ i ∧ i < ss + sz
        · by_cases hc2 : ss + (k + min (min (directReadCall b rcs ss sz k).length
              (file.length - (directReadCall b rcs ss sz k).offset)
            - (ss + k - (directReadCall b rcs ss sz k).offset)) (sz - k)) ≤ i
          · rw [if_pos ⟨hc2, hc1.2⟩, if_pos hc1]
          · rw [if_neg (by omega), if_pos hc1,
              writeBytesF_in _ _ _ i hc1.1 (by rw [hrlen]; omega),
              readAt_getD file (ss + k) _ _ (by omega)]
            congr 1
            omega
        · rw [if_neg (by omega), if_neg hc1,
            writeBytesF_out _ _ _ i (by rw [hrlen]; omega)]
    · have hkz : k = sz := by omega
      simp only [directLoop, directStep, if_neg hks]
      exact ⟨hkz, fun i => by rw [if_neg (by omega)]⟩


end PFR

namespace PFR

/-- The byte counter never decreases across the buffered loop, whatever
outcomes the operating system delivers. -/
theorem bufferedLoop_mono (file : List Nat) (rcs ss sz : Nat)
    (env : Nat → Nat → ReadOutcome) :
    ∀ fuel k buf, k ≤ (bufferedLoop file rcs ss sz env buf k fuel).2.1 := by
  intro fuel
  induction fuel with
  | zero => intro k buf; exact le_refl k
  | succ fuel ih =>
    intro k buf
    by_cases hks : k < sz
    · simp only [bufferedLoop, bufferedStep, if_pos hks]
      cases henv : env (ss + k) (min rcs (sz - k)) with
      | seekFail => exact le_refl k
      | readFail => exact le_refl k
      | ok n =>
        by_cases h1 : n < min rcs (sz - k) ∧ 0 < n
        · simp only [if_pos h1]
          exact Nat.le_add_right k n
        · by_cases h2 : n = 0
          · simp only [if_neg h1, if_pos h2]
            omega
          · simp only [if_neg h1, if_neg h2]
            exact le_trans (Nat.le_add_right k n) (ih (k + n) _)
    · simp only [bufferedLoop, bufferedStep, if_neg hks]
      exact le_refl k

/-- Bytes outside `[ss, ss + reported bytes)` are never written by the
buffered loop, whatever outcomes the operating system delivers. -/
theorem bufferedLoop_frame (file : List Nat) (rcs ss sz : Nat)
    (env : Nat → Nat → ReadOutcome) :
    ∀ fuel k buf i,
      (i < ss + k ∨ ss + (bufferedLoop file rcs ss sz env buf k fuel).2.1 ≤ i) →
      (bufferedLoop file rcs ss sz env buf k fuel).1 i = buf i := by
  intro fuel
  induction fuel with
  | zero => intro k buf i _; rfl
  | succ fuel ih =>
    intro k buf i hi
    by_cases hks : k < sz
    · simp only [bufferedLoop, bufferedStep, if_pos hks] at hi ⊢
      cases henv : env (ss + k) (min rcs (sz - k)) with
      | seekFail => rfl
      | readFail => rfl
      | ok n =>
        rw [henv] at hi
        have hdlen : (readAt file (ss + k) n).length ≤ n := by
          rw [readAt_length]; omega
        by_cases h1 : n < min rcs (sz - k) ∧ 0 < n
        · simp only [if_pos h1] at hi ⊢
          exact writeBytesF_out _ _ _ i (by omega)
        · by_cases h2 : n = 0
          · simp only [if_neg h1, if_pos h2] at hi ⊢
            exact writeBytesF_out _ _ _ i (by omega)
          · simp only [if_neg h1, if_neg h2] at hi ⊢
            have hmono := bufferedLoop_mono file rcs ss sz env fuel (k + n)
              (writeBytesF buf (ss + k) (readAt file (ss + k) n))
            exact (ih (k + n) _ i (by omega)).trans
              (writeBytesF_out _ _ _ i (by omega))
    · simp only [bufferedLoop, bufferedStep, if_neg hks]

/-- The byte counter never decreases across the O_DIRECT loop, whatever
outcomes the operating system delivers. -/
theorem directLoop_mono (file : List Nat) (b rcs ss sz : Nat)
    (env : Nat → Nat → ReadOutcome) :
    ∀ fuel k buf, k ≤ (directLoop file b rcs ss sz env buf k fuel).2.1 := by
  intro fuel
  induction fuel with
  | zero => intro k buf; exact le_refl k
  | succ fuel ih =>
    intro k buf
    by_cases hks : k < sz
    · simp only [directLoop, directStep, if_pos hks]
      cases henv : env (directReadCall b rcs ss sz k).offset
          (directReadCall b rcs ss sz k).length with
      | seekFail => exact le_refl k
      | readFail => exact le_refl k
      | ok n =>
        by_cases h1 : n < (directReadCall b rcs ss sz k).length
        · simp only [if_pos h1]
          exact Nat.le_add_right k _
        · simp only [if_neg h1]
          exact le_trans (Nat.le_add_right k _) (ih _ _)
    · simp only [directLoop, directStep, if_neg hks]
      exact le_refl k

/-- Bytes outside `[ss, ss + reported bytes)` are never written by the
O_DIRECT loop, whatever outcomes the operating system delivers. -/
theorem directLoop_frame (file : List Nat) (b rcs ss sz : Nat)
    (env : Nat → Nat → ReadOutcome) :
    ∀ fuel k buf i,
      (i < ss + k ∨ ss + (directLoop file b rcs ss sz env buf k fuel).2.1 ≤ i) →
      (directLoop file b rcs ss sz env buf k fuel).1 i = buf i := by
  intro fuel
  induction fuel with
  | zero => intro k buf i _; rfl
  | succ fuel ih =>
    intro k buf i hi
    by_cases hks : k < sz
    · simp only [directLoop, directStep, if_pos hks] at hi ⊢
      cases henv : env (directReadCall b rcs ss sz k).offset
          (directReadCall b rcs ss sz k).length with
      | seekFail => rfl
      | readFail => rfl
      | ok n =>
        rw [henv] at hi
        have hdlen : (((readAt file (directReadCall b rcs ss sz k).offset n).drop
            (ss + k - (directReadCall b rcs ss sz k).offset)).take
            (min (sub64 n (ss + k - (directReadCall b rcs ss sz k).offset))
              (sz - k))).length
            ≤ min (sub64 n (ss + k - (directReadCall b rcs ss sz k).offset)) (sz - k) := by
          simp only [List.length_take, List.length_drop]
          omega
        by_cases h1 : n < (directReadCall b rcs ss sz k).length
        · simp only [if_pos h1] at hi ⊢
          exact writeBytesF_out _ _ _ i (by omega)
        · simp only [if_neg h1] at hi ⊢
          have hmono := directLoop_mono file b rcs ss sz env fuel
            (k + min (sub64 n (ss + k - (directReadCall b rcs ss sz k).offset)) (sz - k))
            (writeBytesF buf (ss + k)
              (((readAt file (directReadCall b rcs ss sz k).offset n).drop
                (ss + k - (directReadCall b rcs ss sz k).offset)).take
                (min (sub64 n (ss + k - (directReadCall b rcs ss sz k).offset)) (sz - k))))
          exact (ih _ _ i (by omega)).trans
            (writeBytesF_out _ _ _ i (by omega))
    · simp only [directLoop, directStep, if_neg hks]

end PFR

namespace PFR

/-- After the parallel memset phase, every byte of `[0, fs)` is zero. -/
theorem zeroFillPhase_zero (fs nt : Nat) (hnt : 1 ≤ nt) (buf0 : Nat → Nat) :
    ∀ i, i < fs → zeroFillPhase fs nt buf0 i = 0 := by
  intro i hi
  have hfold := foldl_regions (fun _ => 0) (fun bf p => zeroFillWorker bf p.1 p.2)
    (partitions fs nt) (fun buf p _ j => rfl) buf0 i
  exact hfold.1 (partitions_cover fs nt hnt i hi)

/-- An O_DIRECT worker writes exactly the file's bytes of its partition and
touches nothing else. -/
theorem directWorker_eq (file : List Nat) (b rcs : Nat) (hb : 0 < b) (hd : b ∣ rcs)
    (hr : 0 < rcs) (hflen : file.length < SIZE_MOD) (buf : Nat → Nat) (p : Nat × Nat)
    (hp : p.1 + p.2 ≤ file.length) :
    ∀ i, directWorker file b rcs buf p i =
      if p.1 ≤ i ∧ i < p.1 + p.2 then file.getD i 0 else buf i := by
  intro i
  have h := (directLoop_posix file b rcs p.1 p.2 hb hd hr hp hflen
    (p.2 + 1) 0 buf (by omega) (by omega)).2 i
  simpa [directWorker] using h

/-- A buffered worker writes exactly the file's bytes of its partition and
touches nothing else. -/
theorem bufferedWorker_eq (file : List Nat) (rcs : Nat) (hr : 0 < rcs)
    (buf : Nat → Nat) (p : Nat × Nat) (hp : p.1 + p.2 ≤ file.length) :
    ∀ i, bufferedWorker file rcs buf p i =
      if p.1 ≤ i ∧ i < p.1 + p.2 then file.getD i 0 else buf i := by
  intro i
  have h := (bufferedLoop_posix file rcs p.1 p.2 hr hp
    (p.2 + 1) 0 buf (by omega) (by omega)).2.2 i
  simpa [bufferedWorker] using h

/-- Folding any per-partition worker that realises its partition from the
file over all partitions realises the whole file. -/
theorem engineFold_posix (file : List Nat) (nt : Nat) (hnt : 1 ≤ nt)
    (w : (Nat → Nat) → (Nat × Nat) → (Nat → Nat))
    (hw : ∀ buf p, p ∈ partitions file.length nt → ∀ i,
      w buf p i = if p.1 ≤ i ∧ i < p.1 + p.2 then file.getD i 0 else buf i)
    (buf : Nat → Nat) :
    ∀ i, i < file.length → (partitions file.length nt).foldl w buf i = file.getD i 0 :=
  fun i hi => (foldl_regions _ w (partitions file.length nt) hw buf i).1
    (partitions_cover _ _ hnt i hi)

/-- The constructor-adjusted chunk size is positive. -/
theorem ctorChunkSize_pos (rcs b : Nat) (odirect : Bool) (hb : 0 < b) (hr : 0 < rcs) :
    0 < ctorChunkSize rcs b odirect := by
  unfold ctorChunkSize
  split
  · exact lt_of_lt_of_le hr (roundUp_ge rcs b hb)
  · exact hr

/-- In O_DIRECT mode, the constructor-adjusted chunk size is a multiple of
the block size. -/
theorem ctorChunkSize_dvd (rcs b : Nat) :
    b ∣ ctorChunkSize rcs b true := by
  unfold ctorChunkSize
  by_cases hmod : rcs % b = 0
  · simp only [hmod, true_and]
    rw [if_neg (by simp)]
    exact Nat.dvd_of_mod_eq_zero hmod
  · rw [if_pos (by simp [hmod])]
    exact roundUp_dvd rcs b

/-- A full `read()` call on a failure-free system loads the whole file:
every byte of the destination buffer below `file.length` equals the file's
byte, in either mode, with any thread count. -/
theorem parallelRead_posix (odirect : Bool) (file : List Nat) (b rcs nt : Nat)
    (buf0 : Nat → Nat) (hb : 0 < b) (hr : 0 < rcs) (hnt : 1 ≤ nt)
    (hflen : file.length < SIZE_MOD) :
    ∀ i, i < file.length → parallelRead odirect file b rcs nt buf0 i = file.getD i 0 := by
  intro i hi
  cases odirect with
  | false =>
    exact engineFold_posix file nt hnt
      (fun bf p => bufferedWorker file (ctorChunkSize rcs b false) bf p)
      (fun buf p hp j => bufferedWorker_eq file _
        (ctorChunkSize_pos rcs b false hb hr) buf p
        (partitions_le file.length nt p hp) j)
      (zeroFillPhase file.length nt buf0) i hi
  | true =>
    exact engineFold_posix file nt hnt
      (fun bf p => directWorker file b (ctorChunkSize rcs b true) bf p)
      (fun buf p hp j => directWorker_eq file b _ hb
        (ctorChunkSize_dvd rcs b) (ctorChunkSize_pos rcs b true hb hr) hflen buf p
        (partitions_le file.length nt p hp) j)
      (zeroFillPhase file.length nt buf0) i hi

/-- `verify()` succeeds exactly when the stream opened, the sequential read
delivered all `fs` requested bytes, and the `fs` compared bytes agree. -/
theorem verify_iff (openOk : Bool) (file : List Nat) (fs : Nat) (buf : Nat → Nat) :
    verify openOk file fs buf = true ↔
      (openOk = true ∧ (readAt file 0 fs).length = fs ∧
        ∀ i, i < fs → buf i = file.getD i 0) := by
  cases openOk with
  | false => simp [verify]
  | true =>
    rw [verify, if_pos rfl]
    constructor
    · intro h
      rw [Bool.and_eq_true] at h
      obtain ⟨h1, h2⟩ := h
      rw [beq_iff_eq] at h1
      refine ⟨rfl, h1, ?_⟩
      intro i hi
      have h3 := (List.all_eq_true.mp h2) i (List.mem_range.mpr hi)
      rw [beq_iff_eq] at h3
      rw [h3, readAt_getD file 0 fs i hi, Nat.zero_add]
    · rintro ⟨-, h1, h2⟩
      rw [Bool.and_eq_true, beq_iff_eq]
      refine ⟨h1, List.all_eq_true.mpr ?_⟩
      intro i himem
      rw [List.mem_range] at himem
      rw [beq_iff_eq, h2 i himem, readAt_getD file 0 fs i himem, Nat.zero_add]

end PFR

namespace PFR

/-- C2: for `file_size ≥ 1` and `num_threads ≥ 1`, `read()` partitions the
file into exactly `num_threads` partitions with base length
`file_size / num_threads`, the last partition absorbing
`file_size % num_threads`; offsets are the cumulative sums of the lengths
starting at 0, the partitions are contiguous and non-overlapping, and the
lengths sum exactly to `file_size`. -/
theorem C2_partitioning (fs nt : Nat) (_hfs : 1 ≤ fs) (hnt : 1 ≤ nt) :
    (partitions fs nt).length = nt ∧
    (∀ i, i < nt → ((partitions fs nt).getD i (0, 0)).2 =
      if i = nt - 1 then fs / nt + fs % nt else fs / nt) ∧
    ((partitions fs nt).getD 0 (0, 0)).1 = 0 ∧
    (∀ i, i + 1 < nt → ((partitions fs nt).getD (i + 1) (0, 0)).1 =
      ((partitions fs nt).getD i (0, 0)).1 + ((partitions fs nt).getD i (0, 0)).2) ∧
    (∀ i j, i < j → j < nt →
      ((partitions fs nt).getD i (0, 0)).1 + ((partitions fs nt).getD i (0, 0)).2
        ≤ ((partitions fs nt).getD j (0, 0)).1) ∧
    ((partitions fs nt).map Prod.snd).sum = fs := by
  refine ⟨partitions_length fs nt, ?_, ?_, ?_, ?_, partitions_sum fs nt hnt⟩
  · intro i hi
    rw [partitions_getD fs nt i hi, partitionLen]
  · rw [partitions_getD fs nt 0 hnt, Nat.zero_mul]
  · intro i hi
    rw [partitions_getD fs nt (i + 1) (by omega), partitions_getD fs nt i (by omega)]
    have hlen : partitionLen fs nt i = fs / nt := by
      rw [partitionLen, if_neg (by omega)]
    rw [hlen, Nat.succ_mul]
  · intro i j hij hj
    rw [partitions_getD fs nt i (by omega), partitions_getD fs nt j hj]
    have hlen : partitionLen fs nt i = fs / nt := by
      rw [partitionLen, if_neg (by omega)]
    rw [hlen]
    calc i * (fs / nt) + fs / nt = (i + 1) * (fs / nt) := (Nat.succ_mul _ _).symm
      _ ≤ j * (fs / nt) := Nat.mul_le_mul_right _ (by omega)

/-- C3: in direct-aligned mode, every positioned read the aligned read
adapter issues has a file offset and a requested length that are multiples
of the block size, on every iteration of the loop. -/
theorem C3_aligned_reads (b rcs ss sz k : Nat) :
    b ∣ (directReadCall b rcs ss sz k).offset ∧
    b ∣ (directReadCall b rcs ss sz k).length :=
  ⟨dvd_mul_left b ((ss + k) / b), roundUp_dvd _ b⟩

/-- C6 counterexample: the constructor stores `num_threads = 0` unchanged
(no coercion happens in the engine), and the engine's partitioning with 0
threads produces no partitions at all — not the behaviour of
`num_threads = 1`, which produces the single full-file partition.  (In the
C++ source, `read()` would moreover divide by zero at line 203.) -/
theorem C6_counterexample :
    mkReader (some 10) 0 1024 false = .ok
      { file_size := 10, num_threads := 0, read_chunk_size := 1024,
        bufAllocated := false } ∧
    partitions 10 0 = [] ∧
    partitions 10 1 = [(0, 10)] ∧
    ¬ partitions 10 0 = partitions 10 1 :=
  ⟨rfl, rfl, rfl, by decide⟩

/-- C6 amended: the `num_threads = 0` coercion lives in the command-line
entry point, not the engine: `main` replaces 0 by 1 before constructing the
reader and leaves nonzero values unchanged, so partitioning invoked through
the CLI always has divisor at least 1, and with input 0 proceeds exactly as
with 1. -/
theorem C6_amended_thm :
    ∀ t : Nat, 1 ≤ mainNumThreads t ∧ mainNumThreads 0 = 1 ∧
      mainNumThreads (t + 1) = t + 1 ∧
      ∀ fs, partitions fs (mainNumThreads 0) = partitions fs 1 := by
  intro t
  refine ⟨?_, rfl, ?_, fun fs => rfl⟩
  · rw [mainNumThreads]
    split <;> omega
  · rw [mainNumThreads, if_neg (by omega)]

/-- C7: in direct-aligned mode the constructor rounds the chunk size up to
a multiple of the block size, and under that invariant the rounded-up
request of every iteration of the aligned read adapter never exceeds the
chunk size — so no read overruns the scratch buffer of that size. -/
theorem C7_scratch_bound (b rcs ss sz k : Nat) (hb : 0 < b) :
    b ∣ ctorChunkSize rcs b true ∧
    (directReadCall b (ctorChunkSize rcs b true) ss sz k).length
      ≤ ctorChunkSize rcs b true := by
  refine ⟨ctorChunkSize_dvd rcs b, ?_⟩
  have h1 : (directReadCall b (ctorChunkSize rcs b true) ss sz k).length
      = roundUp (min (ctorChunkSize rcs b true)
          ((sz - k) + (ss + k - (ss + k) / b * b))) b := rfl
  rw [h1]
  exact le_trans (roundUp_mono _ _ b (Nat.min_le_left _ _))
    (le_of_eq (roundUp_eq_self _ b hb (ctorChunkSize_dvd rcs b)))

/-- C9: construction throws exactly when `stat` fails or reports size 0; a
throwing construction makes the process exit with code 1 (and allocates no
buffer); otherwise construction succeeds with the sampled file size stored
(and still no buffer allocated — allocation happens in `read()`). -/
theorem C9_ctor (s : Option Nat) (threads chunk : Nat) (odirect : Bool) :
    ((∃ e, mkReader s threads chunk odirect = .error e) ↔ (s = none ∨ s = some 0)) ∧
    (∀ e, mkReader s threads chunk odirect = .error e →
      mainExitCode s threads chunk odirect = 1) ∧
    (∀ sz, s = some sz → 0 < sz →
      mkReader s threads chunk odirect = .ok
        { file_size := sz, num_threads := threads,
          read_chunk_size := ctorChunkSize chunk blockSize odirect,
          bufAllocated := false }) := by
  refine ⟨?_, ?_, ?_⟩
  · cases s with
    | none => simp [mkReader, getFileSize]
    | some sz =>
      by_cases hsz : sz = 0
      · subst hsz
        simp [mkReader, getFileSize]
      · simp [mkReader, getFileSize, hsz]
  · intro e he
    rw [mainExitCode, he]
  · intro sz hs hsz
    subst hs
    rw [mkReader, if_neg (by simp [getFileSize]; omega)]
    simp [getFileSize]

/-- C10: `verify()` returns true exactly when the verification stream
opened, the sequential read retrieved all `fs` requested bytes, and those
bytes equal the engine's buffer byte for byte; a short verification read
(file shorter than `fs`) yields false. -/
theorem C10_verify (openOk : Bool) (file : List Nat) (fs : Nat) (buf : Nat → Nat) :
    (verify openOk file fs buf = true ↔
      (openOk = true ∧ (readAt file 0 fs).length = fs ∧
        ∀ i, i < fs → buf i = file.getD i 0)) ∧
    (file.length < fs → verify openOk file fs buf = false) := by
  refine ⟨verify_iff openOk file fs buf, ?_⟩
  intro hlt
  cases hval : verify openOk file fs buf with
  | false => rfl
  | true =>
    have h2 := (verify_iff openOk file fs buf).mp hval
    have h3 := h2.2.1
    rw [readAt_length] at h3
    omega

end PFR

namespace PFR

/-- With a positive chunk size, the buffered loop never runs out of fuel
beyond `sz` iterations: every continuing iteration advances the byte
counter by at least one. -/
theorem bufferedLoop_no_fuelOut (file : List Nat) (rcs ss sz : Nat)
    (env : Nat → Nat → ReadOutcome) (hr : 0 < rcs) :
    ∀ fuel k buf, sz - k < fuel →
      (bufferedLoop file rcs ss sz env buf k fuel).2.2 ≠ .fuelOut := by
  intro fuel
  induction fuel with
  | zero => intro k buf hcl; omega
  | succ fuel ih =>
    intro k buf hcl
    by_cases hks : k < sz
    · simp only [bufferedLoop, bufferedStep, if_pos hks]
      cases henv : env (ss + k) (min rcs (sz - k)) with
      | seekFail => simp
      | readFail => simp
      | ok n =>
        by_cases h1 : n < min rcs (sz - k) ∧ 0 < n
        · simp only [if_pos h1]
          simp
        · by_cases h2 : n = 0
          · simp only [if_neg h1, if_pos h2]
            simp
          · simp only [if_neg h1, if_neg h2]
            exact ih (k + n) _ (by omega)
    · simp only [bufferedLoop, bufferedStep, if_neg hks]
      simp

/-- C1: over any in-file logical section the aligned read adapter deposits
in the destination buffer exactly the bytes the buffered reference adapter
deposits for the same section; consequently a parallel read with any thread
count, in either mode, followed by the sequential verification read, is a
byte-for-byte match. -/
theorem C1_aligned_equals_buffered (file : List Nat) (b rcs nt ss sz fuel : Nat)
    (buf0 buf : Nat → Nat)
    (hb : 0 < b) (hr : 0 < rcs) (hnt : 1 ≤ nt)
    (hin : ss + sz ≤ file.length) (hflen : file.length < SIZE_MOD)
    (hfuel : sz < fuel) :
    (∀ i, (directLoop file b (ctorChunkSize rcs b true) ss sz (posixEnv file)
        buf 0 fuel).1 i
      = (bufferedLoop file rcs ss sz (posixEnv file) buf 0 fuel).1 i) ∧
    (∀ i, i < file.length →
      parallelRead true file b rcs nt buf0 i = file.getD i 0) ∧
    (∀ i, i < file.length →
      parallelRead false file b rcs nt buf0 i = file.getD i 0) ∧
    verify true file file.length (parallelRead true file b rcs nt buf0) = true ∧
    verify true file file.length (parallelRead false file b rcs nt buf0) = true := by
  have hdl := (directLoop_posix file b (ctorChunkSize rcs b true) ss sz hb
    (ctorChunkSize_dvd rcs b) (ctorChunkSize_pos rcs b true hb hr) hin hflen
    fuel 0 buf (by omega) (by omega)).2
  have hbl := (bufferedLoop_posix file rcs ss sz hr hin
    fuel 0 buf (by omega) (by omega)).2.2
  refine ⟨fun i => by rw [hdl i, hbl i],
    parallelRead_posix true file b rcs nt buf0 hb hr hnt hflen,
    parallelRead_posix false file b rcs nt buf0 hb hr hnt hflen, ?_, ?_⟩
  · rw [verify_iff]
    exact ⟨rfl, by rw [readAt_length]; omega,
      fun i hi => parallelRead_posix true file b rcs nt buf0 hb hr hnt hflen i hi⟩
  · rw [verify_iff]
    exact ⟨rfl, by rw [readAt_length]; omega,
      fun i hi => parallelRead_posix false file b rcs nt buf0 hb hr hnt hflen i hi⟩

/-- C4: after the parallel memset phase (whose partitions tile the whole
buffer, all memset threads being joined before the read phase starts) every
byte of the destination below `fs` is zero; each read loop, whatever I/O
outcomes occur, writes only inside `[ss, ss + bytes_completed)`; therefore
a byte of the zero-filled buffer that the buffered worker never overwrites
(for example after a failure) is still zero after the read phase. -/
theorem C4_zero_fill (file : List Nat) (fs nt b rcs ss sz fuel : Nat)
    (env : Nat → Nat → ReadOutcome) (buf0 buf : Nat → Nat)
    (hnt : 1 ≤ nt) :
    (∀ i, i < fs → zeroFillPhase fs nt buf0 i = 0) ∧
    (∀ i, (i < ss ∨ ss + (bufferedLoop file rcs ss sz env buf 0 fuel).2.1 ≤ i) →
      (bufferedLoop file rcs ss sz env buf 0 fuel).1 i = buf i) ∧
    (∀ i, (i < ss ∨ ss + (directLoop file b rcs ss sz env buf 0 fuel).2.1 ≤ i) →
      (directLoop file b rcs ss sz env buf 0 fuel).1 i = buf i) ∧
    (∀ i, i < fs →
      (i < ss ∨ ss + (bufferedLoop file rcs ss sz env
          (zeroFillPhase fs nt buf0) 0 fuel).2.1 ≤ i) →
      (bufferedLoop file rcs ss sz env (zeroFillPhase fs nt buf0) 0 fuel).1 i = 0) := by
  refine ⟨zeroFillPhase_zero fs nt hnt buf0, ?_, ?_, ?_⟩
  · intro i hi
    exact bufferedLoop_frame file rcs ss sz env fuel 0 buf i (by omega)
  · intro i hi
    exact directLoop_frame file b rcs ss sz env fuel 0 buf i (by omega)
  · intro i hif hi
    rw [bufferedLoop_frame file rcs ss sz env fuel 0 (zeroFillPhase fs nt buf0) i
      (by omega)]
    exact zeroFillPhase_zero fs nt hnt buf0 i hif

/-- C5: on every iteration of the aligned read adapter over an in-file
section, the in-block offset never exceeds the bytes actually read (so the
size_t subtraction is the exact difference), the byte counter advances by
exactly `min (actually_read - offset_in_block) remaining_in_section`, and
on a short read the iteration stops the loop having copied at most
`actually_read - offset_in_block` bytes. -/
theorem C5_copy_amount (file : List Nat) (b rcs ss sz k : Nat) (buf : Nat → Nat)
    (hb : 0 < b) (hd : b ∣ rcs) (hr : 0 < rcs) (hin : ss + sz ≤ file.length)
    (hflen : file.length < SIZE_MOD) (hk : k < sz) :
    ss + k - (directReadCall b rcs ss sz k).offset
      ≤ min (directReadCall b rcs ss sz k).length
          (file.length - (directReadCall b rcs ss sz k).offset) ∧
    (directStep file b rcs ss sz (posixEnv file) buf k).bytes
      = k + min (min (directReadCall b rcs ss sz k).length
            (file.length - (directReadCall b rcs ss sz k).offset)
          - (ss + k - (directReadCall b rcs ss sz k).offset)) (sz - k) ∧
    (min (directReadCall b rcs ss sz k).length
        (file.length - (directReadCall b rcs ss sz k).offset)
      < (directReadCall b rcs ss sz k).length →
      (directStep file b rcs ss sz (posixEnv file) buf k).reason
        = some .shortRead ∧
      (directStep file b rcs ss sz (posixEnv file) buf k).bytes
        ≤ k + (min (directReadCall b rcs ss sz k).length
            (file.length - (directReadCall b rcs ss sz k).offset)
          - (ss + k - (directReadCall b rcs ss sz k).offset))) := by
  obtain ⟨h1, h2, h3, h4, h5, h6⟩ :=
    directReadCall_facts file b rcs ss sz k hb hd hr hin hk
  have hstep := directStep_posix file b rcs ss sz k buf hb hd hr hin hflen hk
  refine ⟨by omega, ?_, ?_⟩
  · rw [hstep]
    by_cases hs : min (directReadCall b rcs ss sz k).length
        (file.length - (directReadCall b rcs ss sz k).offset)
        < (directReadCall b rcs ss sz k).length
    · simp only [if_pos hs, StepRes.bytes]
    · simp only [if_neg hs, StepRes.bytes]
  · intro hs
    rw [hstep, if_pos hs]
    refine ⟨rfl, ?_⟩
    simp only [StepRes.bytes]
    omega

/-- C8: under any I/O outcomes, one iteration of the buffered loop stops
the loop exactly on a positioning failure, a read failure, a zero-byte read
(end of file), or a positive short read; in the short-read case the bytes
retrieved by that final read are still counted in the worker's reported
total; and with those as the only stopping conditions the loop always
terminates within the fuel bound (no retry path exists). -/
theorem C8_buffered_terminal (file : List Nat) (rcs ss sz k : Nat)
    (env : Nat → Nat → ReadOutcome) (buf : Nat → Nat)
    (hr : 0 < rcs) (hk : k < sz) :
    ((bufferedStep file rcs ss sz env buf k).reason = some .seekFail ↔
      env (ss + k) (min rcs (sz - k)) = .seekFail) ∧
    ((bufferedStep file rcs ss sz env buf k).reason = some .readFail ↔
      env (ss + k) (min rcs (sz - k)) = .readFail) ∧
    ((bufferedStep file rcs ss sz env buf k).reason = some .eofHit ↔
      env (ss + k) (min rcs (sz - k)) = .ok 0) ∧
    ((bufferedStep file rcs ss sz env buf k).reason = some .shortRead ↔
      ∃ n, env (ss + k) (min rcs (sz - k)) = .ok n ∧ 0 < n ∧ n < min rcs (sz - k)) ∧
    (∀ n, env (ss + k) (min rcs (sz - k)) = .ok n → 0 < n → n < min rcs (sz - k) →
      (bufferedStep file rcs ss sz env buf k).bytes = k + n) ∧
    (∀ fuel buf2, sz < fuel →
      (bufferedLoop file rcs ss sz env buf2 0 fuel).2.2 ≠ .fuelOut) := by
  have hterm : ∀ fuel buf2, sz < fuel →
      (bufferedLoop file rcs ss sz env buf2 0 fuel).2.2 ≠ .fuelOut :=
    fun fuel buf2 hf => bufferedLoop_no_fuelOut file rcs ss sz env hr fuel 0 buf2 (by omega)
  cases henv : env (ss + k) (min rcs (sz - k)) with
  | seekFail =>
    simp only [bufferedStep, if_pos hk, henv]
    refine ⟨by simp [StepRes.reason], by simp [StepRes.reason], by simp [StepRes.reason],
      ?_, by intro n hn; exact absurd hn (by simp), hterm⟩
    simp only [StepRes.reason]
    constructor
    · intro h; exact absurd h (by simp)
    · rintro ⟨n, hn, -, -⟩; exact absurd hn (by simp)
  | readFail =>
    simp only [bufferedStep, if_pos hk, henv]
    refine ⟨by simp [StepRes.reason], by simp [StepRes.reason], by simp [StepRes.reason],
      ?_, by intro n hn; exact absurd hn (by simp), hterm⟩
    simp only [StepRes.reason]
    constructor
    · intro h; exact absurd h (by simp)
    · rintro ⟨n, hn, -, -⟩; exact absurd hn (by simp)
  | ok n =>
    by_cases h1 : n < min rcs (sz - k) ∧ 0 < n
    · simp only [bufferedStep, if_pos hk, henv, if_pos h1]
      refine ⟨by simp [StepRes.reason], by simp [StepRes.reason],
        by simp [StepRes.reason]; omega,
        ?_, ?_, hterm⟩
      · simp only [StepRes.reason]
        constructor
        · intro _; exact ⟨n, rfl, h1.2, h1.1⟩
        · intro _; trivial
      · intro m hm _ _
        have : n = m := by
          have := hm
          simp at this
          omega
        subst this
        simp [StepRes.bytes]
    · by_cases h2 : n = 0
      · subst h2
        simp only [bufferedStep, if_pos hk, henv, if_neg h1, if_pos rfl]
        refine ⟨by simp [StepRes.reason], by simp [StepRes.reason], ?_, ?_, ?_, hterm⟩
        · simp [StepRes.reason]
        · simp only [StepRes.reason]
          constructor
          · intro h; exact absurd h (by simp)
          · rintro ⟨m, hm, hm1, -⟩
            have : (0 : Nat) = m := by simpa using hm
            omega
        · intro m hm hm1 _
          have : (0 : Nat) = m := by simpa using hm
          omega
      · simp only [bufferedStep, if_pos hk, henv, if_neg h1, if_neg h2]
        refine ⟨by simp [StepRes.reason], by simp [StepRes.reason],
          ?_, ?_, ?_, hterm⟩
        · simp only [StepRes.reason]
          constructor
          · intro h; exact absurd h (by simp)
          · intro hx
            have : n = 0 := by simpa using hx
            omega
        · simp only [StepRes.reason]
          constructor
          · intro h; exact absurd h (by simp)
          · rintro ⟨m, hm, hm1, hm2⟩
            have : n = m := by simpa using hm
            omega
        · intro m hm hm1 hm2
          have : n = m := by simpa using hm
          omega

end PFR

namespace PFR

/-- C1 witness: concrete file, block size 2, chunk size 3, 3 threads,
section `[1, 5)`. -/
theorem C1_witness :
    (0 < 2 ∧ 0 < 3 ∧ 1 ≤ 3 ∧
      1 + 4 ≤ List.length ([1, 2, 3, 4, 5, 6, 7] : List Nat) ∧
      List.length ([1, 2, 3, 4, 5, 6, 7] : List Nat) < SIZE_MOD ∧ 4 < 5) ∧
    (directLoop [1, 2, 3, 4, 5, 6, 7] 2 (ctorChunkSize 3 2 true) 1 4
        (posixEnv [1, 2, 3, 4, 5, 6, 7]) (fun _ => 8) 0 5).1 3
      = (bufferedLoop [1, 2, 3, 4, 5, 6, 7] 3 1 4
        (posixEnv [1, 2, 3, 4, 5, 6, 7]) (fun _ => 8) 0 5).1 3 ∧
    verify true [1, 2, 3, 4, 5, 6, 7] (List.length ([1, 2, 3, 4, 5, 6, 7] : List Nat))
      (parallelRead true [1, 2, 3, 4, 5, 6, 7] 2 3 3 (fun _ => 9)) = true :=
  ⟨⟨by decide, by decide, by decide, by decide, by decide, by decide⟩,
    (C1_aligned_equals_buffered [1, 2, 3, 4, 5, 6, 7] 2 3 3 1 4 5 (fun _ => 9)
      (fun _ => 8) (by decide) (by decide) (by decide) (by decide) (by decide)
      (by decide)).1 3,
    (C1_aligned_equals_buffered [1, 2, 3, 4, 5, 6, 7] 2 3 3 1 4 5 (fun _ => 9)
      (fun _ => 8) (by decide) (by decide) (by decide) (by decide) (by decide)
      (by decide)).2.2.2.1⟩

/-- C2 witness: 10 bytes over 3 threads. -/
theorem C2_witness :
    (1 ≤ 10 ∧ 1 ≤ 3) ∧ (partitions 10 3).length = 3 ∧
    ((partitions 10 3).map Prod.snd).sum = 10 :=
  ⟨⟨by decide, by decide⟩,
    (C2_partitioning 10 3 (by decide) (by decide)).1,
    (C2_partitioning 10 3 (by decide) (by decide)).2.2.2.2.2⟩

/-- C4 witness: after zero-filling a 6-byte buffer with 2 threads, byte 5
is zero. -/
theorem C4_witness :
    1 ≤ 2 ∧ zeroFillPhase 6 2 (fun _ => 7) 5 = 0 :=
  ⟨by decide,
    (C4_zero_fill [] 6 2 1 1 2 2 3 (fun _ _ => .seekFail) (fun _ => 7) (fun _ => 7)
      (by decide)).1 5 (by decide)⟩

/-- C5 witness: a 5-byte file with block size 2, section `[1, 5)`, at
iteration state `k = 3` (the final, short aligned read). -/
theorem C5_witness :
    (0 < 2 ∧ (2 : Nat) ∣ 2 ∧ 0 < 2 ∧
      1 + 4 ≤ List.length ([11, 12, 13, 14, 15] : List Nat) ∧
      List.length ([11, 12, 13, 14, 15] : List Nat) < SIZE_MOD ∧ 3 < 4) ∧
    (directStep [11, 12, 13, 14, 15] 2 2 1 4 (posixEnv [11, 12, 13, 14, 15])
        (fun _ => 0) 3).bytes
      = 3 + min (min (directReadCall 2 2 1 4 3).length
            (List.length ([11, 12, 13, 14, 15] : List Nat)
              - (directReadCall 2 2 1 4 3).offset)
          - (1 + 3 - (directReadCall 2 2 1 4 3).offset)) (4 - 3) :=
  ⟨⟨by decide, by decide, by decide, by decide, by decide, by decide⟩,
    (C5_copy_amount [11, 12, 13, 14, 15] 2 2 1 4 3 (fun _ => 0)
      (by decide) (by decide) (by decide) (by decide) (by decide) (by decide)).2.1⟩

/-- C7 witness: block size 4096, requested chunk size 1000 (rounded up by
the constructor). -/
theorem C7_witness :
    0 < 4096 ∧ (4096 : Nat) ∣ ctorChunkSize 1000 4096 true ∧
    (directReadCall 4096 (ctorChunkSize 1000 4096 true) 0 5000 0).length
      ≤ ctorChunkSize 1000 4096 true :=
  ⟨by decide, (C7_scratch_bound 4096 1000 0 5000 0 (by decide)).1,
    (C7_scratch_bound 4096 1000 0 5000 0 (by decide)).2⟩

/-- C8 witness: an environment delivering a 1-byte short read; the byte is
still counted in the worker's total. -/
theorem C8_witness :
    (0 < 3 ∧ 0 < 5) ∧
    (bufferedStep [1, 2, 3, 4, 5] 3 0 5 (fun _ _ => ReadOutcome.ok 1)
      (fun _ => 0) 0).bytes = 0 + 1 :=
  ⟨⟨by decide, by decide⟩,
    (C8_buffered_terminal [1, 2, 3, 4, 5] 3 0 5 0 (fun _ _ => ReadOutcome.ok 1)
      (fun _ => 0) (by decide) (by decide)).2.2.2.2.1 1 rfl (by decide) (by decide)⟩

/-- C9 witness: a 5-byte file constructs successfully with the sampled size
stored and no buffer allocated. -/
theorem C9_witness :
    ((some 5 : Option Nat) = some 5 ∧ 0 < 5) ∧
    mkReader (some 5) 2 100 false = .ok
      { file_size := 5, num_threads := 2,
        read_chunk_size := ctorChunkSize 100 blockSize false,
        bufAllocated := false } :=
  ⟨⟨rfl, by decide⟩, (C9_ctor (some 5) 2 100 false).2.2 5 rfl (by decide)⟩

/-- C10 witness: verifying 3 bytes against a 2-byte file is a short
verification read and returns false. -/
theorem C10_witness :
    List.length ([3, 4] : List Nat) < 3 ∧
    verify true [3, 4] 3 (fun _ => 0) = false :=
  ⟨by decide, (C10_verify true [3, 4] 3 (fun _ => 0)).2 (by decide)⟩

end PFR
